import Mathlib

/-!
Verification of the ghr command-line PR review tool.

The development shallowly embeds the TypeScript sources:
  src/modules/command-parser.ts  (CommandParser: execute, processHistoryExpansion)
  src/modules/commands.ts        (Commands.addComment, SessionManager, Application.processLine)
  src/types/index.ts             (SessionState and comment records)

Strings are modelled as `List Char`.  JavaScript string primitives used by the
code (`trim`, `split(/\s+/)`, `split('\n')`, `toLowerCase`, `parseInt`) are
given explicit executable models below.
-/

namespace Ghr

/-- JavaScript strings are modelled as lists of characters. -/
abbrev Str := List Char

/-- Whitespace recognised by the JavaScript `\s` class and `trim`
(ASCII fragment, which is all the tool ever feeds it). -/
def isWS (c : Char) : Bool :=
  c = ' ' || c = '\t' || c = '\n' || c = '\r' || c = '\x0b' || c = '\x0c'

/-- Dropping a prefix can only shorten a list (termination helper). -/
theorem dropWhile_length_le {α : Type} (p : α → Bool) (l : List α) :
    (l.dropWhile p).length ≤ l.length := by
  induction l with
  | nil => simp
  | cons a as ih =>
    rw [List.dropWhile_cons]
    split
    · exact Nat.le_succ_of_le ih
    · exact Nat.le_refl _

/-- Strip trailing whitespace (the right half of `String.prototype.trim`),
written structurally so that induction is direct. -/
def rstripWS : Str → Str
  | [] => []
  | c :: cs =>
    let r := rstripWS cs
    if r = [] && isWS c then [] else c :: r

/-- Model of `String.prototype.trim`: drop leading and trailing whitespace. -/
def jsTrim (s : Str) : Str := rstripWS (s.dropWhile isWS)

/-- Model of `str.split(/\s+/)`: split at maximal whitespace runs.  As in
JavaScript, a leading (resp. trailing) whitespace run contributes a leading
(resp. trailing) empty fragment, and splitting the empty string yields one
empty fragment. -/
def jsSplitWS : Str → List Str
  | [] => [[]]
  | c :: cs =>
    if isWS c then
      match cs with
      | [] => [[], []]
      | d :: _ => if isWS d then jsSplitWS cs else [] :: jsSplitWS cs
    else
      match jsSplitWS cs with
      | [] => [[c]]
      | t :: ts => (c :: t) :: ts

/-- The specification's view of tokenisation: the whitespace-delimited words
of a string, i.e. its maximal runs of non-whitespace characters, with no
empty tokens.  Written from the spec sentence, to be compared with the
`split(/\s+/)`-based computation of the source. -/
def specWords (s : Str) : List Str :=
  match h : s.dropWhile isWS with
  | [] => []
  | c :: cs =>
    (c :: cs.takeWhile (fun d => !isWS d)) :: specWords (cs.dropWhile (fun d => !isWS d))
termination_by s.length
decreasing_by
  have h1 := dropWhile_length_le isWS s
  rw [h] at h1
  have h2 := dropWhile_length_le (fun d => !isWS d) cs
  simp at h1
  omega

/-- Model of `String.prototype.toLowerCase` (character-wise). -/
def jsToLower (s : Str) : Str := s.map Char.toLower

/-- Model of `Array.prototype.join(' ')` on a list of strings. -/
def joinSpace (xs : List Str) : Str := List.intercalate [' '] xs

/-- Numeric value of a run of decimal digits. -/
def digitsToNat (ds : Str) : Nat :=
  ds.foldl (fun a c => a * 10 + (c.toNat - 48)) 0

/-! ### CommandParser (src/modules/command-parser.ts) -/

/-- Lookup in a JavaScript `Map` modelled as an insertion-ordered
association list (`Map.prototype.get`). -/
def lookupAL {α : Type} (m : List (Str × α)) (k : Str) : Option α :=
  (m.find? (fun p => p.1 == k)).map (·.2)

/-- `Map.prototype.set`: replace the value of an existing key in place, or
append a new binding. -/
def setAL {α : Type} (m : List (Str × α)) (k : Str) (v : α) : List (Str × α) :=
  if m.any (fun p => p.1 == k) then
    m.map (fun p => if p.1 == k then (k, v) else p)
  else m ++ [(k, v)]

/-- The `CommandParser` state: the `commands` and `aliases` maps.  Handlers
are abstract (`H`); `execute` reports which handlers it invoked and with
which argument string, instead of running effects. -/
structure CmdParser (H : Type) where
  commands : List (Str × H)
  aliases : List (Str × Str)

/-- `CommandParser.register`: stores the handler under the lowercased name. -/
def register {H : Type} (name : Str) (h : H) (p : CmdParser H) : CmdParser H :=
  { p with commands := setAL p.commands (jsToLower name) h }

/-- `CommandParser.registerAlias`: stores the lowercased alias, mapping to
the lowercased command name. -/
def registerAlias {H : Type} (aliasName target : Str) (p : CmdParser H) : CmdParser H :=
  { p with aliases := setAL p.aliases (jsToLower aliasName) (jsToLower target) }

/-- The command name `execute` computes: first fragment of
`trimmed.split(/\s+/)`, lowercased. -/
def parsedName (trimmed : Str) : Str :=
  jsToLower ((jsSplitWS trimmed).headD [])

/-- The argument string `execute` computes: `parts.slice(1).join(' ')`. -/
def parsedArgs (trimmed : Str) : Str :=
  joinSpace (jsSplitWS trimmed).tail

/-- Body of `CommandParser.execute` after the parse: alias resolution, the
special `+`/`-` early return, then the generic lookup.  The result is the
returned boolean together with the list of performed handler invocations
(handler, argument string passed). -/
def execCore {H : Type} (cmdName0 args : Str) (p : CmdParser H) : Bool × List (H × Str) :=
  let cmdName := (lookupAL p.aliases cmdName0).getD cmdName0
  if cmdName = ['+'] || cmdName = ['-'] then
    match lookupAL p.commands cmdName with
    | some h => (true, [(h, cmdName)])
    | none =>
      match lookupAL p.commands cmdName with
      | some h => (true, [(h, args)])
      | none => (false, [])
  else
    match lookupAL p.commands cmdName with
    | some h => (true, [(h, args)])
    | none => (false, [])

/-- `CommandParser.execute` (src/modules/command-parser.ts:29-61). -/
def execute {H : Type} (input : Str) (p : CmdParser H) : Bool × List (H × Str) :=
  let trimmed := jsTrim input
  if trimmed = [] then (true, [])
  else execCore (parsedName trimmed) (parsedArgs trimmed) p

/-- The alias-resolved command name of an input line, as the claims describe
it: lowercase the first whitespace-delimited token, then replace it by its
target if it is a registered alias. -/
def resolvedName {H : Type} (input : Str) (p : CmdParser H) : Str :=
  let n0 := parsedName (jsTrim input)
  (lookupAL p.aliases n0).getD n0

/-- The `^!(\d+)$` regex of `processHistoryExpansion`: a `!` followed by one
or more decimal digits, and nothing else.  Returns the numeric value. -/
def parseBangNum (s : Str) : Option Nat :=
  match s with
  | c :: ds =>
    if c = '!' ∧ ds ≠ [] ∧ ds.all Char.isDigit then some (digitsToNat ds) else none
  | [] => none

/-- `CommandParser.processHistoryExpansion` (src/modules/command-parser.ts:66-91).
`none` models the `null` return. -/
def processHistoryExpansion (input : Str) (history : List Str) : Option Str :=
  let trimmed := jsTrim input
  if trimmed = "!!".toList then
    if history.length = 0 then none
    else some (history.getD (history.length - 1) [])
  else
    match parseBangNum trimmed with
    | some n =>
      let index : Int := (n : Int) - 1
      if 0 ≤ index ∧ index < (history.length : Int) then
        some (history.getD index.toNat [])
      else none
    | none => some input

/-! ### SessionManager command history (src/modules/commands.ts, SessionManager) -/

/-- `SessionManager.addToHistory`: push the command if it is non-blank, then
`shift` off the oldest entry if the bound is exceeded. -/
def addToHistory (max : Nat) (command : Str) (hist : List Str) : List Str :=
  if jsTrim command = [] then hist
  else
    let h := hist ++ [command]
    if h.length > max then h.tail else h

/-- JavaScript `Array.prototype.slice(-k)`: the last `k` elements, except
that `slice(-0)` is `slice(0)`, the whole array. -/
def jsSliceLast {α : Type} (k : Nat) (l : List α) : List α :=
  if k = 0 then l else l.drop (l.length - k)

/-- The last `k` entries of a list (the specification's "most recent `k`
entries"). -/
def lastN {α : Type} (k : Nat) (l : List α) : List α :=
  l.drop (l.length - k)

/-- Model of `str.split('\n')` (split at every newline, keeping empty
fragments). -/
def splitLines : Str → List Str
  | [] => [[]]
  | c :: cs =>
    if c = '\n' then [] :: splitLines cs
    else
      match splitLines cs with
      | [] => [[c]]
      | t :: ts => (c :: t) :: ts

/-- `SessionManager.loadHistory` on the file's content: split into lines,
keep the non-blank ones, take the last `maxHistorySize`. -/
def loadHistory (max : Nat) (data : Str) : List Str :=
  jsSliceLast max ((splitLines data).filter (fun l => !(jsTrim l).isEmpty))

/-- `SessionManager.saveHistory`: the list of entries whose newline-join is
written to the history file. -/
def saveHistory (max : Nat) (hist : List Str) : List Str :=
  jsSliceLast max hist

/-! ### Application.processLine history recording (src/modules/commands.ts:1079-1112) -/

/-- The `^(h|history|!!?|\!\d+)$` guard of `processLine`. -/
def isHistoryLookup (s : Str) : Bool :=
  s = ['h'] || s = "history".toList || s = ['!'] || s = "!!".toList ||
    (parseBangNum s).isSome

/-- The effect of `Application.processLine` on the command history: blank
lines and failed expansions leave it unchanged; otherwise the expanded line
is added unless the typed line matches the history-lookup guard.  (Command
execution itself never touches the command history.) -/
def processLineHistory (max : Nat) (line : Str) (history : List Str) : List Str :=
  let trimmed := jsTrim line
  if trimmed = [] then history
  else
    match processHistoryExpansion trimmed history with
    | none => history
    | some expandedLine =>
      if isHistoryLookup trimmed then history
      else addToHistory max expandedLine history

/-! ### Session state (src/types/index.ts) and persistence (SessionManager) -/

/-- A value stored in a comment's `createdAt` slot at runtime.  The TypeScript
interface declares `createdAt?: Date`, but after a JSON round trip the slot
holds the serialized string instead of a `Date` object, so the runtime value
is one or the other.  A `Date` is represented by its epoch milliseconds. -/
inductive TimeVal where
  | date (millis : Int)
  | str (s : Str)
deriving DecidableEq

/-- A comment record (`Comment` of src/types/index.ts).  `status` is the
runtime string, `'local'` or `'pushed'`; optional interface fields are
`Option`s (absent ≍ `undefined`). -/
structure SComment where
  id : Option Str
  body : Str
  path : Option Str
  position : Option Int
  line : Option Int
  status : Str
  createdAt : Option TimeVal
deriving DecidableEq

/-- `SessionState` of src/types/index.ts.  `comments.files` is a
`Record<string, ReviewComment[]>`, modelled as an insertion-ordered
association list. -/
structure SessionState where
  prNumber : Option Int
  currentFileIndex : Option Int
  currentFileName : Option Str
  globalComments : List SComment
  fileComments : List (Str × List SComment)
  grepSet : Option (List Int)
  currentGrepIndex : Option Int
deriving DecidableEq

/-- The state the `SessionManager` constructor starts from: empty comment
lists, every optional field absent. -/
def defaultSessionState : SessionState :=
  { prNumber := none, currentFileIndex := none, currentFileName := none,
    globalComments := [], fileComments := [], grepSet := none,
    currentGrepIndex := none }

/-- JSON values, as produced by `JSON.stringify`/`JSON.parse`.  All numbers
the session ever stores are integers. -/
inductive Json where
  | null : Json
  | jbool (b : Bool) : Json
  | num (n : Int) : Json
  | str (s : Str) : Json
  | arr (xs : List Json) : Json
  | obj (fields : List (Str × Json)) : Json

/-- Stand-in for the ISO string `Date.prototype.toJSON` produces under
`JSON.stringify`; only the fact that the result is a JSON *string* matters
to the development. -/
def dateToJSONStr (millis : Int) : Str :=
  "date-".toList ++ (toString millis).toList

/-- How `JSON.stringify` serializes a `createdAt` slot. -/
def encodeTime : TimeVal → Json
  | .date m => .str (dateToJSONStr m)
  | .str s => .str s

/-- An object field that `JSON.stringify` omits when the value is
`undefined`. -/
def optField (k : Str) (v : Option Json) : List (Str × Json) :=
  match v with
  | some j => [(k, j)]
  | none => []

/-- `JSON.stringify` on a comment record. -/
def encodeComment (c : SComment) : Json :=
  .obj (optField ("id".toList) (c.id.map .str)
    ++ [("body".toList, .str c.body)]
    ++ optField ("path".toList) (c.path.map .str)
    ++ optField ("position".toList) (c.position.map .num)
    ++ optField ("line".toList) (c.line.map .num)
    ++ [("status".toList, .str c.status)]
    ++ optField ("createdAt".toList) (c.createdAt.map encodeTime))

/-- `JSON.stringify` on the session state: what `SessionManager.saveSession`
writes to the session file. -/
def encodeState (s : SessionState) : Json :=
  .obj (optField ("prNumber".toList) (s.prNumber.map .num)
    ++ optField ("currentFileIndex".toList) (s.currentFileIndex.map .num)
    ++ optField ("currentFileName".toList) (s.currentFileName.map .str)
    ++ [("comments".toList, .obj
          [("global".toList, .arr (s.globalComments.map encodeComment)),
           ("files".toList, .obj
             (s.fileComments.map (fun p => (p.1, Json.arr (p.2.map encodeComment)))))])]
    ++ optField ("grepSet".toList) (s.grepSet.map (fun l => .arr (l.map .num)))
    ++ optField ("currentGrepIndex".toList) (s.currentGrepIndex.map .num))

/-- Field lookup in a parsed JSON object. -/
def jlookup (fs : List (Str × Json)) (k : Str) : Option Json :=
  (fs.find? (fun p => p.1 == k)).map (·.2)

/-- A number-typed field of the loaded object. -/
def asInt : Json → Option Int
  | .num n => some n
  | _ => none

/-- A string-typed field of the loaded object. -/
def asStr : Json → Option Str
  | .str s => some s
  | _ => none

/-- A loaded `createdAt` slot: `JSON.parse` can only ever produce the
serialized string, never a `Date` object. -/
def asTime : Json → Option TimeVal
  | .str s => some (.str s)
  | _ => none

/-- The comment record the program observes in a loaded comment object. -/
def decodeComment (j : Json) : SComment :=
  match j with
  | .obj fs =>
    { id := (jlookup fs ("id".toList)).bind asStr,
      body := ((jlookup fs ("body".toList)).bind asStr).getD [],
      path := (jlookup fs ("path".toList)).bind asStr,
      position := (jlookup fs ("position".toList)).bind asInt,
      line := (jlookup fs ("line".toList)).bind asInt,
      status := ((jlookup fs ("status".toList)).bind asStr).getD [],
      createdAt := (jlookup fs ("createdAt".toList)).bind asTime }
  | _ =>
    { id := none, body := [], path := none, position := none, line := none,
      status := [], createdAt := none }

/-- A loaded comment array. -/
def decodeCommentArr (j : Json) : List SComment :=
  match j with
  | .arr xs => xs.map decodeComment
  | _ => []

/-- `SessionManager.loadSession` on the parsed file content: the state the
program observes after `this.state = { ...this.state, ...loaded }`, starting
from `defaultSessionState` (fields absent from the loaded object keep their
default: `undefined`, resp. the empty comment containers). -/
def decodeState (j : Json) : SessionState :=
  match j with
  | .obj fs =>
    { prNumber := (jlookup fs ("prNumber".toList)).bind asInt,
      currentFileIndex := (jlookup fs ("currentFileIndex".toList)).bind asInt,
      currentFileName := (jlookup fs ("currentFileName".toList)).bind asStr,
      globalComments :=
        match jlookup fs ("comments".toList) with
        | some (.obj cf) => decodeCommentArr ((jlookup cf ("global".toList)).getD .null)
        | _ => [],
      fileComments :=
        match jlookup fs ("comments".toList) with
        | some (.obj cf) =>
          match jlookup cf ("files".toList) with
          | some (.obj ffs) => ffs.map (fun p => (p.1, decodeCommentArr p.2))
          | _ => []
        | _ => [],
      grepSet :=
        (jlookup fs ("grepSet".toList)).bind (fun j =>
          match j with
          | .arr xs => some (xs.filterMap asInt)
          | _ => none),
      currentGrepIndex := (jlookup fs ("currentGrepIndex".toList)).bind asInt }
  | _ => defaultSessionState

/-! ### Commands.addComment (src/modules/commands.ts:248-304) -/

/-- Model of `parseInt(s, 10)`: skip leading whitespace, optional sign, then
the maximal run of leading decimal digits; `none` models `NaN`. -/
def jsParseInt (s : Str) : Option Int :=
  let s1 := s.dropWhile isWS
  match s1 with
  | '-' :: rest =>
    let ds := rest.takeWhile Char.isDigit
    if ds = [] then none else some (-(digitsToNat ds : Int))
  | '+' :: rest =>
    let ds := rest.takeWhile Char.isDigit
    if ds = [] then none else some ((digitsToNat ds : Int))
  | _ =>
    let ds := s1.takeWhile Char.isDigit
    if ds = [] then none else some ((digitsToNat ds : Int))

/-- `state.comments.files[f].push(c)`, creating the entry (`[]`) first when
the key is absent. -/
def recordPush (m : List (Str × List SComment)) (k : Str) (c : SComment) :
    List (Str × List SComment) :=
  if m.any (fun p => p.1 == k) then
    m.map (fun p => if p.1 == k then (p.1, p.2 ++ [c]) else p)
  else m ++ [(k, [c])]

/-- The `position` argument of `addComment`: `args.split(/\s+/, 2)[0]`. -/
def argPos (args : Str) : Str :=
  ((jsSplitWS args).take 2).headD []

/-- The comment text of `addComment`: `args.split(/\s+/, 2)[1] || ''`. -/
def argText (args : Str) : Str :=
  (((jsSplitWS args).take 2).get? 1).getD []

/-- `Commands.addComment` acting on the session state (console output and
the early-return usage/prompt paths leave the state unchanged). -/
def addComment (args : Str) (st : SessionState) : SessionState :=
  let position := argPos args
  let text := argText args
  if position = [] then st
  else if text = [] then st
  else if jsToLower position = ['g'] then
    { st with globalComments := st.globalComments ++
        [{ id := none, body := text, path := none, position := none,
           line := none, status := "local".toList, createdAt := none }] }
  else
    match st.currentFileName with
    | none => st
    | some fname =>
      match jsParseInt position with
      | none => st
      | some pos =>
        let c : SComment :=
          { id := none, body := text, path := some fname, position := some pos,
            line := none, status := "local".toList, createdAt := none }
        { st with fileComments := recordPush st.fileComments fname c }

/-! ### Generic list helpers -/

/-- The head surviving `dropWhile` fails the predicate. -/
theorem dropWhile_head_false {α : Type} {p : α → Bool} {l : List α} {x : α}
    {xs : List α} (h : l.dropWhile p = x :: xs) : p x = false := by
  have hh := List.head?_dropWhile_not p l
  rw [h] at hh
  simpa using hh

/-- `dropWhile` keeps the last element when its result is non-empty. -/
theorem getLast?_dropWhile {α : Type} {p : α → Bool} {l : List α}
    (h : l.dropWhile p ≠ []) : (l.dropWhile p).getLast? = l.getLast? := by
  induction l with
  | nil => simp at h
  | cons a as ih =>
    rw [List.dropWhile_cons] at h ⊢
    by_cases hp : p a
    · simp only [if_pos hp] at h ⊢
      have hne : as ≠ [] := by
        intro hnil
        rw [hnil] at h
        simp at h
      obtain ⟨b, t, rfl⟩ := List.exists_cons_of_ne_nil hne
      rw [List.getLast?_cons_cons]
      exact ih h
    · simp only [if_neg hp]

/-- Everything removed by a fully-consuming `dropWhile` satisfies the
predicate. -/
theorem all_of_dropWhile_eq_nil {α : Type} {p : α → Bool} {l : List α}
    (h : l.dropWhile p = []) : ∀ x ∈ l, p x = true := by
  induction l with
  | nil => simp
  | cons a as ih =>
    rw [List.dropWhile_cons] at h
    by_cases hp : p a
    · simp only [if_pos hp] at h
      intro x hx
      rcases List.mem_cons.mp hx with rfl | hx
      · exact hp
      · exact ih h x hx
    · simp [hp] at h

/-! ### Equation lemmas for the split functions -/

/-- `jsSplitWS` behind a whitespace character: an empty leading fragment,
then the split of what follows the whitespace run. -/
theorem jsSplitWS_ws_head :
    ∀ (r : Str) (c : Char), isWS c = true →
      jsSplitWS (c :: r) = [] :: jsSplitWS (r.dropWhile isWS) := by
  intro r
  induction r with
  | nil =>
    intro c hc
    simp [jsSplitWS, hc]
  | cons d r' ih =>
    intro c hc
    by_cases hd : isWS d
    · show jsSplitWS (c :: d :: r') = [] :: jsSplitWS ((d :: r').dropWhile isWS)
      rw [List.dropWhile_cons_of_pos hd]
      rw [← ih d hd]
      simp [jsSplitWS, hc, hd]
    · show jsSplitWS (c :: d :: r') = [] :: jsSplitWS ((d :: r').dropWhile isWS)
      rw [List.dropWhile_cons_of_neg hd]
      simp [jsSplitWS, hc, hd]

/-- Splitting a single whitespace-free token yields that token alone. -/
theorem jsSplitWS_all_nonws (t : Str) (ht : ∀ x ∈ t, isWS x = false) :
    jsSplitWS t = [t] := by
  induction t with
  | nil => rfl
  | cons a t' ih =>
    have ha : isWS a = false := ht a (by simp)
    have ih' := ih (fun x hx => ht x (by simp [hx]))
    simp [jsSplitWS, ha, ih']

/-- Splitting a whitespace-free token followed by a whitespace character:
the token is the first fragment. -/
theorem jsSplitWS_token_append (t : Str) (c : Char) (r : Str)
    (ht : ∀ x ∈ t, isWS x = false) (hc : isWS c = true) :
    jsSplitWS (t ++ c :: r) = t :: jsSplitWS (r.dropWhile isWS) := by
  induction t with
  | nil =>
    simpa using jsSplitWS_ws_head r c hc
  | cons a t' ih =>
    have ha : isWS a = false := ht a (by simp)
    have ih' := ih (fun x hx => ht x (by simp [hx]))
    rw [List.cons_append]
    simp [jsSplitWS, ha, ih']

/-- `jsSplitWS` on a string with no whitespace left: one fragment. -/
theorem jsSplitWS_eq_single {s : Str} (h : s.dropWhile (fun c => !isWS c) = []) :
    jsSplitWS s = [s.takeWhile (fun c => !isWS c)] := by
  have hall : ∀ x ∈ s, isWS x = false := by
    intro x hx
    have := all_of_dropWhile_eq_nil h x hx
    simpa using this
  have htk : s.takeWhile (fun c => !isWS c) = s := by
    have := List.takeWhile_append_dropWhile (fun c => !isWS c) s
    rw [h, List.append_nil] at this
    exact this
  rw [htk]
  exact jsSplitWS_all_nonws s hall

/-- `jsSplitWS` when a whitespace character remains: first fragment, then
recurse past the whitespace run. -/
theorem jsSplitWS_eq_cons {s : Str} {c : Char} {cs : Str}
    (h : s.dropWhile (fun c => !isWS c) = c :: cs) :
    jsSplitWS s =
      s.takeWhile (fun c => !isWS c) :: jsSplitWS (cs.dropWhile isWS) := by
  have hc : isWS c = true := by
    have := dropWhile_head_false h
    simpa using this
  have htok : ∀ x ∈ s.takeWhile (fun c => !isWS c), isWS x = false := by
    intro x hx
    have := List.mem_takeWhile_imp hx
    simpa using this
  have hs : s = s.takeWhile (fun c => !isWS c) ++ c :: cs := by
    conv_lhs => rw [← List.takeWhile_append_dropWhile (fun c => !isWS c) s]
    rw [h]
  conv_lhs => rw [hs]
  exact jsSplitWS_token_append _ c cs htok hc

/-- `specWords` of an all-whitespace string: no words. -/
theorem specWords_eq_nil {s : Str} (h : s.dropWhile isWS = []) :
    specWords s = [] := by
  rw [specWords.eq_def]
  split
  · rfl
  · next c cs heq =>
    rw [h] at heq
    exact absurd heq (by simp)

/-- `specWords` once a non-whitespace character is reached: one maximal
non-whitespace run, then recurse. -/
theorem specWords_eq_cons {s : Str} {c : Char} {cs : Str}
    (h : s.dropWhile isWS = c :: cs) :
    specWords s =
      (c :: cs.takeWhile (fun d => !isWS d)) ::
        specWords (cs.dropWhile (fun d => !isWS d)) := by
  rw [specWords.eq_def]
  split
  · next heq =>
    rw [h] at heq
    exact absurd heq (by simp)
  · next c' cs' heq =>
    rw [h] at heq
    obtain ⟨rfl, rfl⟩ := List.cons.inj heq
    rfl

/-! ### Claim theorems -/

/-- Claim C2: for every input whose trimmed form is exactly `!!`,
`processHistoryExpansion` returns the last (most recently added) history
entry when the history is non-empty, and `null` when it is empty.  Both
cases are `history.getLast?`. -/
theorem c2_bangbang_returns_last (input : Str) (history : List Str)
    (h : jsTrim input = "!!".toList) :
    processHistoryExpansion input history = history.getLast? := by
  unfold processHistoryExpansion
  rw [h]
  simp only [if_pos rfl]
  rcases history with _ | ⟨a, t⟩
  · simp
  · have hlen : (a :: t).length ≠ 0 := by simp
    simp only [if_neg hlen]
    have hlt : (a :: t).length - 1 < (a :: t).length := by simp
    rw [List.getLast?_eq_getElem?, List.getD_eq_getElem?_getD,
      List.getElem?_eq_getElem hlt]
    simp

/-- Claim C1: for input whose trimmed form is `!` followed by a decimal
number `n` (digits `ds`), `processHistoryExpansion` returns the `n`-th
history entry (1-based) when `1 ≤ n ≤ length` — packaged as
`history[n-1]?` for `n ≥ 1`, which also yields `null` past the end — and
`null` when `n = 0` or `n` exceeds the length; an input matching neither the
`!n` nor the `!!` form is returned unchanged. -/
theorem c1_bang_number (input : Str) (history : List Str) :
    (∀ ds : Str, jsTrim input = '!' :: ds → ds ≠ [] → ds.all Char.isDigit = true →
      (1 ≤ digitsToNat ds →
          processHistoryExpansion input history = history[digitsToNat ds - 1]?)
        ∧ (digitsToNat ds = 0 → processHistoryExpansion input history = none)
        ∧ (history.length < digitsToNat ds →
            processHistoryExpansion input history = none))
    ∧ (jsTrim input ≠ "!!".toList →
        (∀ ds : Str, jsTrim input = '!' :: ds → ds = [] ∨ ds.all Char.isDigit = false) →
        processHistoryExpansion input history = some input) := by
  constructor
  · intro ds hds hne hdig
    have hnn : jsTrim input ≠ "!!".toList := by
      intro hbb
      rw [hds] at hbb
      have hds1 : ds = ['!'] := by
        have hbb' : ('!' :: ds : Str) = ['!', '!'] := hbb
        exact (List.cons.inj hbb').2
      rw [hds1] at hdig
      simp [Char.isDigit] at hdig
    have hpb : parseBangNum (jsTrim input) = some (digitsToNat ds) := by
      rw [hds]
      simp [parseBangNum, hne, hdig]
    refine ⟨?_, ?_, ?_⟩
    · intro h1
      by_cases hlt : ((digitsToNat ds : Int) - 1) < (history.length : Int)
      · have hcond : (0 : Int) ≤ (digitsToNat ds : Int) - 1 ∧
            ((digitsToNat ds : Int) - 1) < (history.length : Int) := ⟨by omega, hlt⟩
        have hlt' : digitsToNat ds - 1 < history.length := by omega
        have htn : ((digitsToNat ds : Int) - 1).toNat = digitsToNat ds - 1 := by omega
        simp only [processHistoryExpansion, if_neg hnn, hpb, if_pos hcond, htn]
        rw [List.getD_eq_getElem?_getD, List.getElem?_eq_getElem hlt']
        simp
      · have hcond : ¬((0 : Int) ≤ (digitsToNat ds : Int) - 1 ∧
            ((digitsToNat ds : Int) - 1) < (history.length : Int)) := by
          intro hc
          exact hlt hc.2
        have hge : history.length ≤ digitsToNat ds - 1 := by omega
        simp only [processHistoryExpansion, if_neg hnn, hpb, if_neg hcond]
        rw [List.getElem?_eq_none hge]
    · intro h0
      have hcond : ¬((0 : Int) ≤ (digitsToNat ds : Int) - 1 ∧
          ((digitsToNat ds : Int) - 1) < (history.length : Int)) := by
        intro hc
        have := hc.1
        omega
      simp only [processHistoryExpansion, if_neg hnn, hpb, if_neg hcond]
    · intro hgt
      have hcond : ¬((0 : Int) ≤ (digitsToNat ds : Int) - 1 ∧
          ((digitsToNat ds : Int) - 1) < (history.length : Int)) := by
        intro hc
        have := hc.2
        omega
      simp only [processHistoryExpansion, if_neg hnn, hpb, if_neg hcond]
  · intro hnn hnf
    have hpb : parseBangNum (jsTrim input) = none := by
      cases htr : jsTrim input with
      | nil => rfl
      | cons c cs =>
        simp only [parseBangNum]
        rw [if_neg]
        intro hc
        rcases hc with ⟨rfl, hcs, hall⟩
        rcases hnf cs htr with h | h
        · exact hcs h
        · rw [hall] at h
          simp at h
    simp only [processHistoryExpansion, if_neg hnn, hpb]

/-- Witness for C1: concrete lookups `!2` (in range), `!0`, `!9` (out of
range), and a plain command line that is returned unchanged. -/
theorem c1_witness :
    processHistoryExpansion "!2".toList ["lpr".toList, "pr 4".toList] =
        some ("pr 4".toList)
      ∧ processHistoryExpansion "!0".toList ["lpr".toList] = none
      ∧ processHistoryExpansion "!9".toList ["lpr".toList] = none
      ∧ processHistoryExpansion "pr 4".toList ["lpr".toList] =
          some ("pr 4".toList) := by
  refine ⟨?_, ?_, ?_, ?_⟩
  · have h := (c1_bang_number ("!2".toList) ["lpr".toList, "pr 4".toList]).1
      "2".toList (by decide) (by decide) (by decide)
    rw [h.1 (by decide)]
    decide
  · exact ((c1_bang_number ("!0".toList) ["lpr".toList]).1 "0".toList (by decide)
      (by decide) (by decide)).2.1 (by decide)
  · exact ((c1_bang_number ("!9".toList) ["lpr".toList]).1 "9".toList (by decide)
      (by decide) (by decide)).2.2 (by decide)
  · refine (c1_bang_number ("pr 4".toList) ["lpr".toList]).2 (by decide) ?_
    intro ds h
    have h3 : (jsTrim "pr 4".toList : Str) = 'p' :: "r 4".toList := by decide
    rw [h3] at h
    exact absurd (List.cons.inj h).1 (by decide)

/-- Witness for C2 at a concrete input. -/
theorem c2_witness :
    jsTrim "  !! ".toList = "!!".toList ∧
      processHistoryExpansion "  !! ".toList ["lpr".toList, "pr 4".toList] =
        (["lpr".toList, "pr 4".toList] : List Str).getLast? :=
  ⟨by decide, c2_bangbang_returns_last ("  !! ".toList) _ (by decide)⟩

/-- Claim C5: the command history is ordered and size-bounded.  After an
`addToHistory` call the length stays within `maxHistorySize`; a call on a
full history discards exactly the oldest entry; a non-blank added command
becomes the last entry; `loadHistory` and `saveHistory` truncate to the most
recent `maxHistorySize` entries. -/
theorem c5_history_bounded (max : Nat) (cmd : Str) (hist : List Str) (data : Str)
    (hmax : 1 ≤ max) :
    (hist.length ≤ max → (addToHistory max cmd hist).length ≤ max)
    ∧ (hist.length = max → jsTrim cmd ≠ [] →
        addToHistory max cmd hist = hist.tail ++ [cmd])
    ∧ (jsTrim cmd ≠ [] → (addToHistory max cmd hist).getLast? = some cmd)
    ∧ (loadHistory max data).length ≤ max
    ∧ loadHistory max data =
        lastN max ((splitLines data).filter (fun l => !(jsTrim l).isEmpty))
    ∧ (saveHistory max hist).length ≤ max
    ∧ saveHistory max hist = lastN max hist := by
  have hslice : ∀ l : List Str, jsSliceLast max l = lastN max l := by
    intro l
    unfold jsSliceLast lastN
    rw [if_neg (by omega)]
  have hslicelen : ∀ l : List Str, (jsSliceLast max l).length ≤ max := by
    intro l
    rw [hslice l]
    unfold lastN
    rw [List.length_drop]
    omega
  refine ⟨?_, ?_, ?_, hslicelen _, hslice _, hslicelen _, hslice _⟩
  · intro hlen
    by_cases hb : jsTrim cmd = []
    · simp [addToHistory, hb]
      omega
    · simp only [addToHistory, if_neg hb]
      by_cases hfull : (hist ++ [cmd]).length > max
      · rw [if_pos hfull]
        rw [List.length_tail, List.length_append]
        simp
        omega
      · rw [if_neg hfull]
        omega
  · intro hlen hb
    simp only [addToHistory, if_neg hb]
    have hfull : (hist ++ [cmd]).length > max := by
      rw [List.length_append]
      simp
      omega
    rw [if_pos hfull]
    rcases hist with _ | ⟨a, t⟩
    · simp at hlen
      omega
    · simp
  · intro hb
    simp only [addToHistory, if_neg hb]
    by_cases hfull : (hist ++ [cmd]).length > max
    · rw [if_pos hfull]
      rcases hist with _ | ⟨a, t⟩
      · simp at hfull
        omega
      · simp [List.getLast?_concat]
    · rw [if_neg hfull]
      exact List.getLast?_concat _

/-- Witness for C5 at concrete values: bound 2, a full history, one blank
and one real command, and a three-line history file. -/
theorem c5_witness :
    ((["a".toList, "b".toList] : List Str).length ≤ 2 →
        (addToHistory 2 "pr 7".toList ["a".toList, "b".toList]).length ≤ 2)
    ∧ ((["a".toList, "b".toList] : List Str).length = 2 → jsTrim "pr 7".toList ≠ [] →
        addToHistory 2 "pr 7".toList ["a".toList, "b".toList] =
          (["a".toList, "b".toList] : List Str).tail ++ ["pr 7".toList])
    ∧ (jsTrim "pr 7".toList ≠ [] →
        (addToHistory 2 "pr 7".toList ["a".toList, "b".toList]).getLast? =
          some ("pr 7".toList))
    ∧ (loadHistory 2 "x\ny\nz\n".toList).length ≤ 2
    ∧ loadHistory 2 "x\ny\nz\n".toList =
        lastN 2 ((splitLines "x\ny\nz\n".toList).filter (fun l => !(jsTrim l).isEmpty))
    ∧ (saveHistory 2 ["a".toList, "b".toList]).length ≤ 2
    ∧ saveHistory 2 ["a".toList, "b".toList] = lastN 2 ["a".toList, "b".toList] :=
  c5_history_bounded 2 ("pr 7".toList) ["a".toList, "b".toList]
    ("x\ny\nz\n".toList) (by decide)

/-- Claim C9 fails as stated: its second half says a history back-reference
that expands to an earlier command gets the expanded command recorded, but
`processLine` skips `addToHistory` entirely for such lines.  At `!!` with
history `[lpr]`, the expansion succeeds yet the history is left unchanged
rather than extended by the expanded command. -/
theorem c9_counterexample :
    processHistoryExpansion "!!".toList ["lpr".toList] = some ("lpr".toList)
    ∧ processLineHistory 100 "!!".toList ["lpr".toList] = ["lpr".toList]
    ∧ processLineHistory 100 "!!".toList ["lpr".toList] ≠
        addToHistory 100 "lpr".toList ["lpr".toList] := by
  refine ⟨by decide, by decide, ?_⟩
  decide

/-- Claim C9 as amended: a line whose trimmed form is `h`, `history`, `!!`
or `!n` is never recorded into the command history by `processLine`; when
such a line expands to an earlier command, *nothing* is recorded — the
command history is left entirely unchanged (the expanded command line is not
recorded either). -/
theorem c9_lookup_never_recorded (max : Nat) (line : Str) (history : List Str)
    (h : jsTrim line = ['h'] ∨ jsTrim line = "history".toList
      ∨ jsTrim line = "!!".toList
      ∨ ∃ ds : Str, jsTrim line = '!' :: ds ∧ ds ≠ [] ∧ ds.all Char.isDigit = true) :
    processLineHistory max line history = history := by
  have hne : jsTrim line ≠ [] := by
    rcases h with h | h | h | ⟨ds, hds, _, _⟩
    · simp [h]
    · simp [h]
    · simp [h]
    · simp [hds]
  have hl : isHistoryLookup (jsTrim line) = true := by
    rcases h with h | h | h | ⟨ds, hds, hne', hdig⟩
    · rw [h]; decide
    · rw [h]; decide
    · rw [h]; decide
    · rw [hds]
      simp [isHistoryLookup, parseBangNum, hne', hdig]
  simp only [processLineHistory, if_neg hne]
  cases hpe : processHistoryExpansion (jsTrim line) history with
  | none => rfl
  | some e => simp [hl]

/-- Witness for the amended C9: the display command `history` and the
back-reference `!1` both leave a concrete history unchanged. -/
theorem c9_witness :
    processLineHistory 100 " history ".toList ["lpr".toList] = ["lpr".toList]
    ∧ processLineHistory 100 "!1".toList ["lpr".toList] = ["lpr".toList] :=
  ⟨c9_lookup_never_recorded 100 (" history ".toList) _ (Or.inr (Or.inl (by decide))),
   c9_lookup_never_recorded 100 ("!1".toList) _
     (Or.inr (Or.inr (Or.inr ⟨['1'], by decide, by decide, by decide⟩)))⟩

/-- All comments held in a session state, global and per-file. -/
def allComments (st : SessionState) : List SComment :=
  st.globalComments ++ (st.fileComments.map Prod.snd).flatten

/-- The comment record `addComment` builds for the global list. -/
def localGlobalComment (body : Str) : SComment :=
  { id := none, body := body, path := none, position := none,
    line := none, status := "local".toList, createdAt := none }

/-- The comment record `addComment` builds for a file's list. -/
def localFileComment (body fname : Str) (pos : Int) : SComment :=
  { id := none, body := body, path := some fname, position := some pos,
    line := none, status := "local".toList, createdAt := none }

/-- A comment found in a `recordPush` result is an old comment or the pushed
one. -/
theorem mem_join_recordPush {m : List (Str × List SComment)} {k : Str}
    {cnew c : SComment}
    (h : c ∈ ((recordPush m k cnew).map Prod.snd).flatten) :
    c ∈ (m.map Prod.snd).flatten ∨ c = cnew := by
  unfold recordPush at h
  by_cases hk : m.any (fun p => p.1 == k)
  · rw [if_pos hk] at h
    simp only [List.mem_flatten, List.mem_map] at h ⊢
    obtain ⟨l, ⟨pp, hpp, heq⟩, hc⟩ := h
    obtain ⟨a, ham, hae⟩ := hpp
    by_cases hkey : a.1 == k
    · rw [if_pos hkey] at hae
      have hl : l = a.2 ++ [cnew] := by
        rw [← heq, ← hae]
      rw [hl] at hc
      rcases List.mem_append.mp hc with hc | hc
      · exact Or.inl ⟨a.2, ⟨a, ham, rfl⟩, hc⟩
      · exact Or.inr (by simpa using hc)
    · rw [if_neg hkey] at hae
      have hl : l = a.2 := by
        rw [← heq, ← hae]
      rw [hl] at hc
      exact Or.inl ⟨a.2, ⟨a, ham, rfl⟩, hc⟩
  · rw [if_neg hk] at h
    simp only [List.map_append, List.flatten_append, List.mem_append] at h
    rcases h with h | h
    · left
      simpa using h
    · right
      simpa using h

/-- The global branch of `addComment`: a non-empty text behind position
token `g` (any case) is appended to the global comment list. -/
theorem addComment_global (args : Str) (st : SessionState)
    (hg : jsToLower (argPos args) = ['g']) (ht : argText args ≠ []) :
    addComment args st = { st with globalComments :=
      st.globalComments ++ [localGlobalComment (argText args)] } := by
  have h1 : argPos args ≠ [] := by
    intro h
    rw [h] at hg
    simp [jsToLower] at hg
  unfold addComment
  rw [if_neg h1, if_neg ht, if_pos hg]
  rfl

/-- Claim C6: every comment `addComment` creates has status `local`; with
position argument `g` it appends a global comment carrying no path and no
position (file comments untouched); with a numeric position and a selected
file it appends to that file's list a comment carrying the current file name
as path and the parsed position (global comments untouched, as the record
equalities show). -/
theorem c6_addComment (args : Str) (st : SessionState) :
    (∀ c ∈ allComments (addComment args st),
        c ∈ allComments st ∨ c.status = "local".toList)
    ∧ ((localGlobalComment (argText args)).path = none
        ∧ (localGlobalComment (argText args)).position = none
        ∧ (localGlobalComment (argText args)).status = "local".toList)
    ∧ (jsToLower (argPos args) = ['g'] → argText args ≠ [] →
        addComment args st = { st with globalComments :=
          st.globalComments ++ [localGlobalComment (argText args)] })
    ∧ (∀ f : Str, ∀ pos : Int,
        (localFileComment (argText args) f pos).path = some f
        ∧ (localFileComment (argText args) f pos).position = some pos
        ∧ (localFileComment (argText args) f pos).status = "local".toList)
    ∧ (∀ f : Str, ∀ pos : Int,
        argPos args ≠ [] → jsToLower (argPos args) ≠ ['g'] →
        st.currentFileName = some f → jsParseInt (argPos args) = some pos →
        argText args ≠ [] →
        addComment args st = { st with
          fileComments := recordPush st.fileComments f
            (localFileComment (argText args) f pos) }) := by
  refine ⟨?_, ⟨rfl, rfl, rfl⟩, ?_, fun f pos => ⟨rfl, rfl, rfl⟩, ?_⟩
  · intro c hc
    unfold addComment at hc
    by_cases h1 : argPos args = []
    · rw [if_pos h1] at hc
      exact Or.inl hc
    · rw [if_neg h1] at hc
      by_cases h2 : argText args = []
      · rw [if_pos h2] at hc
        exact Or.inl hc
      · rw [if_neg h2] at hc
        by_cases h3 : jsToLower (argPos args) = ['g']
        · rw [if_pos h3] at hc
          unfold allComments at hc ⊢
          simp only at hc
          rw [List.append_assoc] at hc
          rcases List.mem_append.mp hc with hc | hc
          · exact Or.inl (List.mem_append.mp (List.mem_append_left _ hc) |>.elim
              (fun h => List.mem_append.mpr (Or.inl h)) (fun h => List.mem_append.mpr (Or.inl h)))
          · rcases List.mem_append.mp hc with hc | hc
            · right
              simpa using congrArg SComment.status (List.mem_singleton.mp hc)
            · exact Or.inl (List.mem_append.mpr (Or.inr hc))
        · rw [if_neg h3] at hc
          cases hf : st.currentFileName with
          | none =>
            rw [hf] at hc
            exact Or.inl hc
          | some fname =>
            rw [hf] at hc
            cases hp : jsParseInt (argPos args) with
            | none =>
              rw [hp] at hc
              exact Or.inl hc
            | some pos =>
              rw [hp] at hc
              unfold allComments at hc ⊢
              simp only at hc
              rcases List.mem_append.mp hc with hc | hc
              · exact Or.inl (List.mem_append.mpr (Or.inl hc))
              · rcases mem_join_recordPush hc with hc | hc
                · exact Or.inl (List.mem_append.mpr (Or.inr hc))
                · right
                  rw [hc]
  · exact addComment_global args st
  · intro f pos h1 hg hf hp ht
    unfold addComment
    rw [if_neg h1, if_neg ht, if_neg hg, hf, hp]
    rfl

/-- The state with a file selected, used by the C6 witness. -/
def stWithFile : SessionState :=
  { defaultSessionState with currentFileName := some "src/a.ts".toList }

/-- Witness for C6: `ca g nice` on the default state, and `ca 12 nit` with
file `src/a.ts` selected. -/
theorem c6_witness :
    (∀ c ∈ allComments (addComment "g nice".toList defaultSessionState),
        c ∈ allComments defaultSessionState ∨ c.status = "local".toList)
    ∧ addComment "g nice".toList defaultSessionState =
        { defaultSessionState with globalComments :=
            defaultSessionState.globalComments ++
              [localGlobalComment (argText "g nice".toList)] }
    ∧ addComment "12 nit".toList stWithFile =
        { stWithFile with
          fileComments := recordPush stWithFile.fileComments ("src/a.ts".toList)
            (localFileComment (argText "12 nit".toList) ("src/a.ts".toList) 12) } :=
  ⟨(c6_addComment ("g nice".toList) defaultSessionState).1,
   (c6_addComment ("g nice".toList) defaultSessionState).2.2.1 (by decide) (by decide),
   (c6_addComment ("12 nit".toList) stWithFile).2.2.2.2
     ("src/a.ts".toList) 12 (by decide) (by decide) (by decide) (by decide) (by decide)⟩

/-- Claim C8: when `addComment` gets a position token followed by comment
text of more than one word, only the first word of the text survives
(`args.split(/\s+/, 2)` truncates, it does not keep the remainder), so the
stored body is exactly that first word. -/
theorem c8_text_truncated (p w1 w2 : Str) (st : SessionState)
    (hp : p ≠ []) (hpw : ∀ x ∈ p, isWS x = false)
    (h1 : w1 ≠ []) (h1w : ∀ x ∈ w1, isWS x = false) :
    argText (p ++ ' ' :: w1 ++ ' ' :: w2) = w1
    ∧ (jsToLower p = ['g'] →
        addComment (p ++ ' ' :: w1 ++ ' ' :: w2) st =
          { st with globalComments :=
              st.globalComments ++ [localGlobalComment w1] }) := by
  have hsplit : jsSplitWS (p ++ ' ' :: w1 ++ ' ' :: w2) =
      p :: w1 :: jsSplitWS (w2.dropWhile isWS) := by
    rw [show (p ++ ' ' :: w1 ++ ' ' :: w2 : Str) = p ++ ' ' :: (w1 ++ ' ' :: w2) by simp]
    rw [jsSplitWS_token_append p ' ' (w1 ++ ' ' :: w2) hpw (by decide)]
    obtain ⟨a, w1', rfl⟩ := List.exists_cons_of_ne_nil h1
    have ha : isWS a = false := h1w a (by simp)
    rw [List.cons_append, List.dropWhile_cons_of_neg (by simp [ha])]
    rw [← List.cons_append]
    rw [jsSplitWS_token_append (a :: w1') ' ' w2 h1w (by decide)]
  have htext : argText (p ++ ' ' :: w1 ++ ' ' :: w2) = w1 := by
    unfold argText
    rw [hsplit]
    rfl
  have hposn : argPos (p ++ ' ' :: w1 ++ ' ' :: w2) = p := by
    unfold argPos
    rw [hsplit]
    rfl
  refine ⟨htext, ?_⟩
  intro hg
  have hgt : jsToLower (argPos (p ++ ' ' :: w1 ++ ' ' :: w2)) = ['g'] := by
    rw [hposn]
    exact hg
  have hne : argText (p ++ ' ' :: w1 ++ ' ' :: w2) ≠ [] := by
    rw [htext]
    exact h1
  have := addComment_global (p ++ ' ' :: w1 ++ ' ' :: w2) st hgt hne
  rw [htext] at this
  exact this

/-- Witness for C8: `ca g too many words` stores only `too`. -/
theorem c8_witness :
    argText ("g".toList ++ ' ' :: "too".toList ++ ' ' :: "many words".toList) =
      "too".toList
    ∧ addComment ("g".toList ++ ' ' :: "too".toList ++ ' ' :: "many words".toList)
        defaultSessionState =
      { defaultSessionState with globalComments :=
          defaultSessionState.globalComments ++
            [localGlobalComment "too".toList] } := by
  have h := c8_text_truncated ("g".toList) ("too".toList) ("many words".toList)
    defaultSessionState (by decide) (by decide) (by decide) (by decide)
  exact ⟨h.1, h.2 (by decide)⟩

/-- Claim C3: on a non-blank line, `execute` resolves the lowercased first
token through the alias table; if the resolved name has a registered handler
exactly that handler is invoked once and `true` is returned, otherwise no
handler is invoked and `false` is returned. -/
theorem c3_dispatch {H : Type} (input : Str) (p : CmdParser H)
    (h : jsTrim input ≠ []) :
    (execute input p).1 = (lookupAL p.commands (resolvedName input p)).isSome
    ∧ (execute input p).2.map Prod.fst =
        (lookupAL p.commands (resolvedName input p)).toList := by
  have hres : resolvedName input p =
      (lookupAL p.aliases (parsedName (jsTrim input))).getD
        (parsedName (jsTrim input)) := rfl
  simp only [execute, if_neg h, execCore, hres]
  set r := (lookupAL p.aliases (parsedName (jsTrim input))).getD
    (parsedName (jsTrim input)) with hr
  by_cases hpm : (r = ['+'] || r = ['-']) = true
  · rw [if_pos hpm]
    cases hlk : lookupAL p.commands r with
    | none => simp [hlk]
    | some hd => simp [hlk]
  · rw [if_neg hpm]
    cases hlk : lookupAL p.commands r with
    | none => simp [hlk]
    | some hd => simp [hlk]

/-- Witness for C3: the known command `pr` (through alias `p`) dispatches
with result `true`, and an unknown command dispatches nothing with result
`false`. -/
theorem c3_witness :
    (jsTrim " p 12 ".toList ≠ [] ∧
      ((execute " p 12 ".toList
          (⟨[("pr".toList, 7)], [("p".toList, "pr".toList)]⟩ : CmdParser Nat)).1 =
        (lookupAL [("pr".toList, 7)]
          (resolvedName " p 12 ".toList
            (⟨[("pr".toList, 7)], [("p".toList, "pr".toList)]⟩ : CmdParser Nat))).isSome
      ∧ (execute " p 12 ".toList
          (⟨[("pr".toList, 7)], [("p".toList, "pr".toList)]⟩ : CmdParser Nat)).2.map
            Prod.fst =
        (lookupAL [("pr".toList, 7)]
          (resolvedName " p 12 ".toList
            (⟨[("pr".toList, 7)], [("p".toList, "pr".toList)]⟩ : CmdParser Nat))).toList))
    ∧ (jsTrim "zz".toList ≠ [] ∧
      ((execute "zz".toList
          (⟨[("pr".toList, 7)], [("p".toList, "pr".toList)]⟩ : CmdParser Nat)).1 =
        (lookupAL [("pr".toList, 7)]
          (resolvedName "zz".toList
            (⟨[("pr".toList, 7)], [("p".toList, "pr".toList)]⟩ : CmdParser Nat))).isSome
      ∧ (execute "zz".toList
          (⟨[("pr".toList, 7)], [("p".toList, "pr".toList)]⟩ : CmdParser Nat)).2.map
            Prod.fst =
        (lookupAL [("pr".toList, 7)]
          (resolvedName "zz".toList
            (⟨[("pr".toList, 7)], [("p".toList, "pr".toList)]⟩ : CmdParser Nat))).toList)) :=
  ⟨⟨by decide, c3_dispatch (" p 12 ".toList) _ (by decide)⟩,
   ⟨by decide, c3_dispatch ("zz".toList) _ (by decide)⟩⟩

/-! ### Trim corner lemmas (for C4 and C10) -/

/-- `rstripWS` never ends in whitespace. -/
theorem rstripWS_getLast_not_ws :
    ∀ (s : Str) (x : Char), (rstripWS s).getLast? = some x → isWS x = false := by
  intro s
  induction s with
  | nil => intro x hx; simp [rstripWS] at hx
  | cons c cs ih =>
    intro x hx
    simp only [rstripWS] at hx
    by_cases hcond : (rstripWS cs = [] && isWS c) = true
    · rw [if_pos hcond] at hx
      simp at hx
    · rw [if_neg hcond] at hx
      cases hr : rstripWS cs with
      | nil =>
        rw [hr] at hx
        simp at hx
        rw [hr] at hcond
        simp at hcond
        rw [← hx]
        exact hcond
      | cons d ds =>
        rw [hr] at hx
        rw [List.getLast?_cons_cons] at hx
        rw [← hr] at hx
        exact ih x hx

/-- `rstripWS` keeps the head of its argument (when anything survives). -/
theorem rstripWS_head? :
    ∀ s : Str, rstripWS s = [] ∨ (rstripWS s).head? = s.head? := by
  intro s
  cases s with
  | nil => exact Or.inl rfl
  | cons c cs =>
    simp only [rstripWS]
    by_cases hcond : (rstripWS cs = [] && isWS c) = true
    · rw [if_pos hcond]
      exact Or.inl rfl
    · rw [if_neg hcond]
      exact Or.inr rfl

/-- A trimmed string does not start with whitespace. -/
theorem jsTrim_head_not_ws (s : Str) :
    ∀ x, (jsTrim s).head? = some x → isWS x = false := by
  intro x hx
  unfold jsTrim at hx
  rcases rstripWS_head? (s.dropWhile isWS) with h | h
  · rw [h] at hx
    simp at hx
  · rw [h] at hx
    have := List.head?_dropWhile_not isWS s
    rw [hx] at this
    simpa using this

/-- A trimmed string does not end with whitespace. -/
theorem jsTrim_getLast_not_ws (s : Str) :
    ∀ x, (jsTrim s).getLast? = some x → isWS x = false :=
  fun x hx => rstripWS_getLast_not_ws (s.dropWhile isWS) x hx

/-- Appending behind a whitespace-free token distributes over `rstripWS`. -/
theorem rstripWS_append_nonws (t r : Str) (ht : ∀ x ∈ t, isWS x = false) :
    rstripWS (t ++ r) = t ++ rstripWS r := by
  induction t with
  | nil => rfl
  | cons a t' ih =>
    have ha : isWS a = false := ht a (by simp)
    have ih' := ih (fun x hx => ht x (by simp [hx]))
    rw [List.cons_append]
    simp only [rstripWS, ih', ha]
    simp

/-- `jsTrim` of a whitespace-free token followed by a remainder keeps the
token and right-strips the remainder. -/
theorem jsTrim_token_append (t r : Str) (hne : t ≠ [])
    (ht : ∀ x ∈ t, isWS x = false) :
    jsTrim (t ++ r) = t ++ rstripWS r := by
  obtain ⟨a, t', rfl⟩ := List.exists_cons_of_ne_nil hne
  have ha : isWS a = false := ht a (by simp)
  unfold jsTrim
  rw [List.cons_append, List.dropWhile_cons_of_neg (by simp [ha]), ← List.cons_append]
  exact rstripWS_append_nonws (a :: t') r ht

/-- Claim C10: command dispatch is case-insensitive.  Replacing the first
token of an input line by any token with the same lowercasing changes
nothing about `execute`'s behaviour: same boolean result, same handler
invocations, same argument strings. -/
theorem c10_case_insensitive {H : Type} (t1 t2 r : Str) (p : CmdParser H)
    (h1 : t1 ≠ []) (h2 : t2 ≠ [])
    (hw1 : ∀ x ∈ t1, isWS x = false) (hw2 : ∀ x ∈ t2, isWS x = false)
    (hlow : jsToLower t1 = jsToLower t2)
    (hr : r = [] ∨ isWS (r.headD ' ') = true) :
    execute (t1 ++ r) p = execute (t2 ++ r) p := by
  have e1 : jsTrim (t1 ++ r) = t1 ++ rstripWS r := jsTrim_token_append t1 r h1 hw1
  have e2 : jsTrim (t2 ++ r) = t2 ++ rstripWS r := jsTrim_token_append t2 r h2 hw2
  have hne1 : jsTrim (t1 ++ r) ≠ [] := by
    rw [e1]
    simp [h1]
  have hne2 : jsTrim (t2 ++ r) ≠ [] := by
    rw [e2]
    simp [h2]
  have hsplit : ∀ t : Str, t ≠ [] → (∀ x ∈ t, isWS x = false) →
      jsSplitWS (t ++ rstripWS r) = t :: (jsSplitWS (t ++ rstripWS r)).tail
      ∧ (jsSplitWS (t ++ rstripWS r)).tail =
          (jsSplitWS (t2 ++ rstripWS r)).tail := by
    intro t htne htw
    cases hrs : rstripWS r with
    | nil =>
      simp only [List.append_nil]
      rw [jsSplitWS_all_nonws t htw, jsSplitWS_all_nonws t2 hw2]
      exact ⟨rfl, rfl⟩
    | cons c rr =>
      have hc : isWS c = true := by
        rcases hr with hr | hr
        · rw [hr] at hrs
          simp [rstripWS] at hrs
        · rcases rstripWS_head? r with hh | hh
          · rw [hh] at hrs
            exact absurd hrs (by simp)
          · rw [hrs] at hh
            cases r with
            | nil => simp [rstripWS] at hrs
            | cons d ds =>
              simp at hh hr
              rw [hh]
              exact hr
      rw [jsSplitWS_token_append t c rr htw hc,
        jsSplitWS_token_append t2 c rr hw2 hc]
      exact ⟨rfl, rfl⟩
  obtain ⟨hs1, hts1⟩ := hsplit t1 h1 hw1
  obtain ⟨hs2, hts2⟩ := hsplit t2 h2 hw2
  have hn : parsedName (t1 ++ rstripWS r) = parsedName (t2 ++ rstripWS r) := by
    unfold parsedName
    rw [hs1, hs2]
    simp only [List.headD_cons]
    exact hlow
  have hargs : parsedArgs (t1 ++ rstripWS r) = parsedArgs (t2 ++ rstripWS r) := by
    unfold parsedArgs
    rw [hts1, hts2]
  have hne1' : t1 ++ rstripWS r ≠ [] := by simp [h1]
  have hne2' : t2 ++ rstripWS r ≠ [] := by simp [h2]
  simp only [execute, e1, e2]
  rw [if_neg hne1', if_neg hne2', hn, hargs]

/-- Witness for C10: `PR 12` and `pr 12` dispatch identically. -/
theorem c10_witness :
    execute ("PR".toList ++ " 12".toList)
        (⟨[("pr".toList, 7)], []⟩ : CmdParser Nat) =
      execute ("pr".toList ++ " 12".toList)
        (⟨[("pr".toList, 7)], []⟩ : CmdParser Nat) :=
  c10_case_insensitive ("PR".toList) ("pr".toList) (" 12".toList) _
    (by decide) (by decide) (by decide) (by decide) (by decide) (by decide)

/-- On strings that neither start nor end with whitespace — which is exactly
what `execute` feeds `split(/\s+/)` after trimming — the JavaScript split
produces precisely the whitespace-delimited words of the specification. -/
theorem jsSplitWS_eq_specWords :
    ∀ (n : Nat) (s : Str), s.length ≤ n → s ≠ [] →
      (∀ x, s.head? = some x → isWS x = false) →
      (∀ x, s.getLast? = some x → isWS x = false) →
      jsSplitWS s = specWords s := by
  intro n
  induction n with
  | zero =>
    intro s hl hne _ _
    cases s with
    | nil => exact absurd rfl hne
    | cons c cs => simp at hl
  | succ n ih =>
    intro s hl hne hstart hend
    obtain ⟨c, cs, rfl⟩ := List.exists_cons_of_ne_nil hne
    have hc : isWS c = false := hstart c rfl
    have hdw : (c :: cs).dropWhile isWS = c :: cs :=
      List.dropWhile_cons_of_neg (by simp [hc])
    cases hd : (c :: cs).dropWhile (fun x => !isWS x) with
    | nil =>
      have hall : ∀ x ∈ c :: cs, isWS x = false := by
        intro x hx
        have := all_of_dropWhile_eq_nil hd x hx
        simpa using this
      rw [jsSplitWS_all_nonws _ hall, specWords_eq_cons hdw]
      have hdcs : cs.dropWhile (fun x => !isWS x) = [] := by
        rw [List.dropWhile_cons_of_pos (by simp [hc])] at hd
        exact hd
      have htcs : cs.takeWhile (fun d => !isWS d) = cs := by
        have := List.takeWhile_append_dropWhile (fun x => !isWS x) cs
        rw [hdcs, List.append_nil] at this
        exact this
      rw [htcs, hdcs]
      rw [specWords_eq_nil (by simp)]
    | cons c0 cs0 =>
      have hc0 : isWS c0 = true := by
        have := dropWhile_head_false hd
        simpa using this
      rw [jsSplitWS_eq_cons hd, specWords_eq_cons hdw]
      have htok : (c :: cs).takeWhile (fun x => !isWS x) =
          c :: cs.takeWhile (fun d => !isWS d) :=
        List.takeWhile_cons_of_pos (by simp [hc])
      rw [htok]
      congr 1
      have hrest : cs.dropWhile (fun d => !isWS d) = c0 :: cs0 := by
        have h2 : (c :: cs).dropWhile (fun x => !isWS x) =
            cs.dropWhile (fun x => !isWS x) :=
          List.dropWhile_cons_of_pos (by simp [hc])
        rw [← h2]
        exact hd
      rw [hrest]
      have hlast : (c0 :: cs0).getLast? = (c :: cs).getLast? := by
        rw [← hd]
        exact getLast?_dropWhile (by simp [hd])
      by_cases ht : cs0.dropWhile isWS = []
      · exfalso
        have hallws : ∀ x ∈ cs0, isWS x = true := all_of_dropWhile_eq_nil ht
        cases cs0 with
        | nil =>
          have := hend c0 (by rw [← hlast]; rfl)
          rw [hc0] at this
          exact absurd this (by simp)
        | cons d ds =>
          have hm : (d :: ds).getLast (by simp) ∈ d :: ds := List.getLast_mem _
          have hgl : (c0 :: d :: ds).getLast? =
              some ((d :: ds).getLast (by simp)) := by
            rw [List.getLast?_cons_cons]
            exact List.getLast?_eq_getLast _ _
          have hws := hallws _ hm
          have hnws := hend _ (by rw [← hlast, hgl])
          rw [hws] at hnws
          exact absurd hnws (by simp)
      · obtain ⟨t0, ts, htcons⟩ := List.exists_cons_of_ne_nil ht
        have ht0 : isWS t0 = false := dropWhile_head_false htcons
        have hsw1 : (c0 :: cs0).dropWhile isWS = t0 :: ts := by
          rw [List.dropWhile_cons_of_pos hc0]
          exact htcons
        have hsw2 : (cs0.dropWhile isWS).dropWhile isWS = t0 :: ts := by
          rw [htcons]
          exact List.dropWhile_cons_of_neg (by simp [ht0])
        rw [specWords_eq_cons hsw1, ← specWords_eq_cons hsw2]
        have hcs0ne : cs0 ≠ [] := by
          intro hnil
          rw [hnil] at ht
          exact ht rfl
        apply ih
        · have ha : (cs0.dropWhile isWS).length ≤ cs0.length :=
            dropWhile_length_le _ _
          have hb : (c0 :: cs0).length ≤ (c :: cs).length := by
            rw [← hd]
            exact dropWhile_length_le _ _
          simp only [List.length_cons] at hb hl
          omega
        · exact ht
        · intro x hx
          rw [htcons] at hx
          simp at hx
          rw [← hx]
          exact ht0
        · intro x hx
          have hx2 : (c0 :: cs0).getLast? = some x := by
            obtain ⟨d, ds, rfl⟩ := List.exists_cons_of_ne_nil hcs0ne
            rw [List.getLast?_cons_cons]
            rw [← getLast?_dropWhile (p := isWS) (l := d :: ds) (by rw [htcons]; simp)]
            exact hx
          exact hend x (by rw [← hlast, hx2])

/-- Claim C4: `execute` parses a non-blank line into exactly a command name —
the first maximal run of non-whitespace characters of the trimmed line,
lowercased — and an argument string — the remaining whitespace-delimited
words joined by single spaces; every handler invocation it performs passes
either that argument string or the resolved command name, nothing else
derived from the line. -/
theorem c4_parse {H : Type} (input : Str) (p : CmdParser H)
    (h : jsTrim input ≠ []) :
    parsedName (jsTrim input) =
      jsToLower ((jsTrim input).takeWhile (fun c => !isWS c))
    ∧ parsedArgs (jsTrim input) =
        joinSpace (specWords ((jsTrim input).dropWhile (fun c => !isWS c)))
    ∧ ∀ inv ∈ (execute input p).2,
        inv.2 = parsedArgs (jsTrim input) ∨ inv.2 = resolvedName input p := by
  obtain ⟨c, cs, hcons⟩ := List.exists_cons_of_ne_nil h
  have hc : isWS c = false := jsTrim_head_not_ws input c (by rw [hcons]; rfl)
  have hwords : jsSplitWS (jsTrim input) = specWords (jsTrim input) :=
    jsSplitWS_eq_specWords (jsTrim input).length (jsTrim input) (Nat.le_refl _) h
      (jsTrim_head_not_ws input) (jsTrim_getLast_not_ws input)
  have hdw : (jsTrim input).dropWhile isWS = c :: cs := by
    rw [hcons]
    exact List.dropWhile_cons_of_neg (by simp [hc])
  have hspec : specWords (jsTrim input) =
      (jsTrim input).takeWhile (fun x => !isWS x) ::
        specWords ((jsTrim input).dropWhile (fun x => !isWS x)) := by
    rw [specWords_eq_cons hdw]
    rw [hcons]
    rw [List.takeWhile_cons_of_pos (by simp [hc]),
      List.dropWhile_cons_of_pos (by simp [hc])]
  refine ⟨?_, ?_, ?_⟩
  · unfold parsedName
    rw [hwords, hspec]
    rfl
  · unfold parsedArgs
    rw [hwords, hspec]
    rfl
  · intro inv hinv
    simp only [execute, if_neg h, execCore] at hinv
    set rn := (lookupAL p.aliases (parsedName (jsTrim input))).getD
      (parsedName (jsTrim input)) with hrn
    have hres : resolvedName input p = rn := rfl
    by_cases hpm : (rn = ['+'] || rn = ['-']) = true
    · rw [if_pos hpm] at hinv
      cases hlk : lookupAL p.commands rn with
      | none =>
        rw [hlk] at hinv
        simp at hinv
      | some hh =>
        rw [hlk] at hinv
        simp at hinv
        right
        rw [hinv]
        exact hres.symm
    · rw [if_neg hpm] at hinv
      cases hlk : lookupAL p.commands rn with
      | none =>
        rw [hlk] at hinv
        simp at hinv
      | some hh =>
        rw [hlk] at hinv
        simp at hinv
        left
        rw [hinv]

/-- Witness for C4 at the concrete line `  PR   12 34  `. -/
theorem c4_witness :
    jsTrim "  PR   12 34  ".toList ≠ [] ∧
      (parsedName (jsTrim "  PR   12 34  ".toList) =
        jsToLower ((jsTrim "  PR   12 34  ".toList).takeWhile (fun c => !isWS c))
      ∧ parsedArgs (jsTrim "  PR   12 34  ".toList) =
          joinSpace (specWords
            ((jsTrim "  PR   12 34  ".toList).dropWhile (fun c => !isWS c)))
      ∧ ∀ inv ∈ (execute "  PR   12 34  ".toList
            (⟨[("pr".toList, 7)], []⟩ : CmdParser Nat)).2,
          inv.2 = parsedArgs (jsTrim "  PR   12 34  ".toList)
          ∨ inv.2 = resolvedName "  PR   12 34  ".toList
              (⟨[("pr".toList, 7)], []⟩ : CmdParser Nat)) :=
  ⟨by decide, c4_parse ("  PR   12 34  ".toList) _ (by decide)⟩

/-! ### JSON object lookup lemmas (for C7) -/

/-- Looking up the key of the first field. -/
theorem jlookup_cons_self (k : Str) (v : Json) (rest : List (Str × Json)) :
    jlookup ((k, v) :: rest) k = some v := by
  unfold jlookup
  rw [List.find?_cons_of_pos _ (by simp)]
  rfl

/-- Skipping a field with a different key. -/
theorem jlookup_cons_ne {k' k : Str} (v : Json) (rest : List (Str × Json))
    (h : (k' == k) = false) :
    jlookup ((k', v) :: rest) k = jlookup rest k := by
  unfold jlookup
  rw [List.find?_cons_of_neg _ (by simp [h])]

/-- Skipping an optional field (present or absent) with a different key. -/
theorem jlookup_optField_ne {k' k : Str} (v : Option Json)
    (rest : List (Str × Json)) (h : (k' == k) = false) :
    jlookup (optField k' v ++ rest) k = jlookup rest k := by
  cases v with
  | none => rfl
  | some j =>
    rw [show optField k' (some j) = [(k', j)] from rfl, List.cons_append]
    exact jlookup_cons_ne j rest h

/-- Reading back an optional field under its own key. -/
theorem jlookup_optField_self (k : Str) (v : Option Json) :
    jlookup (optField k v) k = v := by
  cases v with
  | none => rfl
  | some j => exact jlookup_cons_self k j []

/-- The empty object has no fields. -/
theorem jlookup_nil (k : Str) : jlookup ([] : List (Str × Json)) k = none := rfl

/-- An optional field at the end of the object, read under its own key. -/
theorem jlookup_optField_self_append (k : Str) (v : Option Json)
    (rest : List (Str × Json)) :
    jlookup (optField k v ++ rest) k =
      (match v with | some j => some j | none => jlookup rest k) := by
  cases v with
  | none => rfl
  | some j =>
    rw [show optField k (some j) = [(k, j)] from rfl, List.cons_append]
    exact jlookup_cons_self k j rest

/-- `createdAt` slots that hold no `Date` object (absent, or already the
serialized string). -/
def noDateVal : Option TimeVal → Bool
  | some (.date _) => false
  | _ => true

/-- No comment of the state carries a `Date`-valued `createdAt`.  This holds
for every comment the tool itself creates: `addComment` never sets
`createdAt`. -/
def stateHasNoDates (s : SessionState) : Bool :=
  s.globalComments.all (fun c => noDateVal c.createdAt) &&
    s.fileComments.all (fun p => p.2.all (fun c => noDateVal c.createdAt))

/-- A comment whose `createdAt` holds no `Date` survives the JSON round trip
unchanged. -/
theorem decode_encode_comment (c : SComment)
    (h : noDateVal c.createdAt = true) :
    decodeComment (encodeComment c) = c := by
  obtain ⟨cid, cbody, cpath, cpos, cline, cstat, ctime⟩ := c
  rcases ctime with _ | tv
  · cases cid <;> cases cpath <;> cases cpos <;> cases cline <;>
      simp [encodeComment, decodeComment, optField, jlookup, List.find?,
        asStr, asInt, asTime, encodeTime]
  · cases tv with
    | date m => simp [noDateVal] at h
    | str ds =>
      cases cid <;> cases cpath <;> cases cpos <;> cases cline <;>
        simp [encodeComment, decodeComment, optField, jlookup, List.find?,
          asStr, asInt, asTime, encodeTime]

/-- Integers survive the JSON array round trip (`grepSet`). -/
theorem filterMap_asInt_map_num (l : List Int) :
    (l.map Json.num).filterMap asInt = l := by
  induction l with
  | nil => rfl
  | cons a l ih => simp [asInt, ih]

/-- Comment lists whose entries hold no `Date` survive the round trip. -/
theorem map_decode_encode (l : List SComment)
    (h : l.all (fun c => noDateVal c.createdAt) = true) :
    (l.map encodeComment).map decodeComment = l := by
  induction l with
  | nil => rfl
  | cons c cl ih =>
    simp only [List.all_cons, Bool.and_eq_true] at h
    simp only [List.map_cons]
    rw [decode_encode_comment c h.1, ih h.2]

/-- The per-file comment record survives the round trip when no stored
comment holds a `Date`. -/
theorem map_decode_encode_files (m : List (Str × List SComment))
    (h : m.all (fun p => p.2.all (fun c => noDateVal c.createdAt)) = true) :
    (m.map (fun p => (p.1, Json.arr (p.2.map encodeComment)))).map
        (fun p => (p.1, decodeCommentArr p.2)) = m := by
  induction m with
  | nil => rfl
  | cons p pl ih =>
    simp only [List.all_cons, Bool.and_eq_true] at h
    simp only [List.map_cons]
    rw [ih h.2]
    have hp : decodeCommentArr (Json.arr (p.2.map encodeComment)) = p.2 := by
      show (p.2.map encodeComment).map decodeComment = p.2
      exact map_decode_encode p.2 h.1
    simp only [hp]

/-- Claim C7 fails as stated: a session state holding a comment whose
`createdAt` is a `Date` object does not round-trip — `JSON.stringify` turns
the `Date` into a string, and `JSON.parse` gives that string back, not a
`Date`. -/
def dateState : SessionState :=
  { defaultSessionState with globalComments :=
      [{ id := none, body := "b".toList, path := none, position := none,
         line := none, status := "local".toList,
         createdAt := some (.date 0) }] }

/-- Counterexample to C7 as stated: the save/load round trip is not the
identity on `dateState`. -/
theorem c7_counterexample : decodeState (encodeState dateState) ≠ dateState := by
  decide

/-- Claim C7 as amended: for every session state in which no comment carries
a `Date`-valued `createdAt` — which includes every state the tool itself
builds, since `addComment` never sets `createdAt` — saving with
`saveSession` and loading with `loadSession` from the default empty state
restores an equal state: selected PR, selected file and all accumulated
comments are preserved. -/
theorem c7_roundtrip (s : SessionState) (h : stateHasNoDates s = true) :
    decodeState (encodeState s) = s := by
  obtain ⟨pn, cfi, cfn, gl, fl, gs, cgi⟩ := s
  simp only [stateHasNoDates, Bool.and_eq_true] at h
  have hgl : (gl.map encodeComment).map decodeComment = gl :=
    map_decode_encode gl h.1
  have hfl : (fl.map (fun p => (p.1, Json.arr (p.2.map encodeComment)))).map
      (fun p => (p.1, decodeCommentArr p.2)) = fl :=
    map_decode_encode_files fl h.2
  have hcomp : List.map ((fun p => (p.1, decodeCommentArr p.2)) ∘
      (fun p => (p.1, Json.arr (List.map encodeComment p.2)))) fl = fl := by
    rw [← List.map_map]
    exact hfl
  have hgs : ∀ l : List Int, l.filterMap (asInt ∘ Json.num) = l := by
    intro l
    have := filterMap_asInt_map_num l
    rwa [List.filterMap_map] at this
  cases pn <;> cases cfi <;> cases cfn <;> cases gs <;> cases cgi <;>
    simp [encodeState, decodeState, optField, jlookup, List.find?, asStr,
      asInt, decodeCommentArr, hgl, filterMap_asInt_map_num] <;>
    first
    | exact hcomp
    | exact ⟨hcomp, hgs _⟩

/-- A concrete populated state for the C7 witness: a PR, a selected file,
one global and one file comment, and a search result set. -/
def popState : SessionState :=
  { prNumber := some 41, currentFileIndex := some 2,
    currentFileName := some "src/a.ts".toList,
    globalComments := [localGlobalComment "nice".toList],
    fileComments := [("src/a.ts".toList, [localFileComment "nit".toList
      ("src/a.ts".toList) 12])],
    grepSet := some [1, 3], currentGrepIndex := some 0 }

/-- Witness for the amended C7 at `popState`. -/
theorem c7_witness :
    stateHasNoDates popState = true ∧
      decodeState (encodeState popState) = popState :=
  ⟨by decide, c7_roundtrip popState (by decide)⟩

end Ghr
